import Mathlib

/-!
Verification development for the grid-reconstruction and crop-refinement
engine of the repository (src/utils/imageProcessor.ts and
src/components/CropAdjuster.tsx).  Geometry is modelled over the rationals:
all stored box state is in the normalized 0-1000 coordinate space of the
source, and the pixel-space quantities derived by the code are exact
rational images of the normalized bounds.
-/

/-- A bounding box in the normalized 0-1000 coordinate space
(interface BoundingBox of src/utils/imageProcessor.ts). -/
structure BoundingBox where
  xmin : ℚ
  ymin : ℚ
  xmax : ℚ
  ymax : ℚ
deriving DecidableEq, Repr

/-- A box annotated with the pixel-space quantities computed at the top of
organizeBoxes (the object spread keeps the normalized bounds). -/
structure PixelBox where
  xmin : ℚ
  ymin : ℚ
  xmax : ℚ
  ymax : ℚ
  y : ℚ
  x : ℚ
  w : ℚ
  h : ℚ
  cy : ℚ
  cx : ℚ
deriving DecidableEq, Repr

/-- The pixel-box map at the top of organizeBoxes: scale the normalized
bounds by the image pixel dimensions over 1000. -/
def toPixelBox (width height : ℚ) (b : BoundingBox) : PixelBox :=
  { xmin := b.xmin, ymin := b.ymin, xmax := b.xmax, ymax := b.ymax,
    y := b.ymin / 1000 * height,
    x := b.xmin / 1000 * width,
    w := (b.xmax - b.xmin) / 1000 * width,
    h := (b.ymax - b.ymin) / 1000 * height,
    cy := (b.ymin + b.ymax) / 2000 * height,
    cx := (b.xmin + b.xmax) / 2000 * width }

/-- An element of the sortedBoxes array built by organizeBoxes. -/
structure SortedBox where
  box : PixelBox
  row : ℕ
  col : ℕ
deriving DecidableEq, Repr

/-- The record returned by organizeBoxes. -/
structure OrganizeResult where
  sortedBoxes : List SortedBox
  rows : ℕ
  cols : ℕ
deriving DecidableEq, Repr

/-- Insertion step of a stable ascending sort on a rational key, modelling
the stable JavaScript Array.prototype.sort with a numeric key comparator. -/
def insertByKey {α : Type} (key : α → ℚ) (a : α) : List α → List α
  | [] => [a]
  | b :: l => if key a ≤ key b then a :: b :: l else b :: insertByKey key a l

/-- Stable ascending sort on a rational key (insertion sort). -/
def sortByKey {α : Type} (key : α → ℚ) : List α → List α
  | [] => []
  | a :: l => insertByKey key a (sortByKey key l)

/-- The row-clustering loop of organizeBoxes.  The anchor is the cy of the
first box placed in the currently open row (currentRowY in the source);
a box joins the open row when its cy is within half its own pixel height
of the anchor, otherwise the open row is emitted and a new row starts. -/
def clusterGo (anchor : ℚ) (cur : List PixelBox) : List PixelBox → List (List PixelBox)
  | [] => [cur]
  | b :: rest =>
    if |b.cy - anchor| < b.h * (1/2) then clusterGo anchor (cur ++ [b]) rest
    else cur :: clusterGo b.cy [b] rest

/-- Row clustering of the cy-sorted pixel boxes (empty input gives no rows). -/
def clusterRows : List PixelBox → List (List PixelBox)
  | [] => []
  | b :: rest => clusterGo b.cy [b] rest

/-- The inner forEach of organizeBoxes: assign column indices within one
row (the counter is the colIndex of the forEach callback). -/
def assignRow (ri : ℕ) : ℕ → List PixelBox → List SortedBox
  | _, [] => []
  | ci, b :: rest => ⟨b, ri, ci⟩ :: assignRow ri (ci + 1) rest

/-- The outer forEach of organizeBoxes: sort each row by cx left-to-right
and emit its boxes with their row/col indices, row-major. -/
def assignRows : ℕ → List (List PixelBox) → List SortedBox
  | _, [] => []
  | ri, row :: rest =>
    assignRow ri 0 (sortByKey PixelBox.cx row) ++ assignRows (ri + 1) rest

/-- organizeBoxes of src/utils/imageProcessor.ts: map to pixel boxes, sort
by cy, cluster into rows, then sort every row by cx and emit row-major with
(row, col) indices; rows is the cluster count and cols the longest row. -/
def organizeBoxes (boxes : List BoundingBox) (width height : ℚ) : OrganizeResult :=
  let pixelBoxes := boxes.map (toPixelBox width height)
  let sorted := sortByKey PixelBox.cy pixelBoxes
  let rows := clusterRows sorted
  let maxCols := rows.foldl (fun m r => max m r.length) 0
  { sortedBoxes := assignRows 0 rows, rows := rows.length, cols := maxCols }

/-- The move branch of handlePointerMove in CropAdjuster.tsx: the delta is
added to the snapshot min corner, clamped so the box stays inside
[0,1000] x [0,1000], and the size is re-applied exactly. -/
def moveBox (box : BoundingBox) (deltaX deltaY : ℚ) : BoundingBox :=
  let newXmin := max 0 (min (1000 - (box.xmax - box.xmin)) (box.xmin + deltaX))
  let newYmin := max 0 (min (1000 - (box.ymax - box.ymin)) (box.ymin + deltaY))
  { xmin := newXmin, ymin := newYmin,
    xmax := newXmin + (box.xmax - box.xmin),
    ymax := newYmin + (box.ymax - box.ymin) }

/-- The eight resize handles of the editor. -/
inductive Handle where
  | n | s | e | w | ne | nw | se | sw
deriving DecidableEq, Repr

/-- Whether the handle string contains the west edge. -/
def Handle.hasW : Handle → Bool
  | Handle.w => true
  | Handle.nw => true
  | Handle.sw => true
  | _ => false

/-- Whether the handle string contains the east edge. -/
def Handle.hasE : Handle → Bool
  | Handle.e => true
  | Handle.ne => true
  | Handle.se => true
  | _ => false

/-- Whether the handle string contains the north edge. -/
def Handle.hasN : Handle → Bool
  | Handle.n => true
  | Handle.ne => true
  | Handle.nw => true
  | _ => false

/-- Whether the handle string contains the south edge. -/
def Handle.hasS : Handle → Bool
  | Handle.s => true
  | Handle.se => true
  | Handle.sw => true
  | _ => false

/-- The resize branch of handlePointerMove in CropAdjuster.tsx.  Each edge
named in the handle moves by the matching delta component, clamped against
the opposite edge at a minimum size of 20 normalized units and against the
canvas bound; the east (resp. south) clamp reads the local xmin (resp.
ymin) variable, which the west (resp. north) branch may have updated. -/
def resizeBox (box : BoundingBox) (handle : Handle) (deltaX deltaY : ℚ) : BoundingBox :=
  let minSize : ℚ := 20
  let xmin1 := if handle.hasW then min (box.xmax - minSize) (max 0 (box.xmin + deltaX)) else box.xmin
  let xmax1 := if handle.hasE then max (xmin1 + minSize) (min 1000 (box.xmax + deltaX)) else box.xmax
  let ymin1 := if handle.hasN then min (box.ymax - minSize) (max 0 (box.ymin + deltaY)) else box.ymin
  let ymax1 := if handle.hasS then max (ymin1 + minSize) (min 1000 (box.ymax + deltaY)) else box.ymax
  { xmin := xmin1, ymin := ymin1, xmax := xmax1, ymax := ymax1 }

/-- One axis of the out-of-bounds shift logic of handleSyncSize: first the
low-edge check shifts the interval so the low edge sits at 0, then the
high-edge check computes diff = high - 1000 and adds it to both edges,
clamping the low edge to 0 if it ended up negative. -/
def shiftAxis (lo hi : ℚ) : ℚ × ℚ :=
  let lo1 := if lo < 0 then lo + (0 - lo) else lo
  let hi1 := if lo < 0 then hi + (0 - lo) else hi
  let lo2 := if hi1 > 1000 then
      (if lo1 + (hi1 - 1000) < 0 then 0 else lo1 + (hi1 - 1000))
    else lo1
  let hi2 := if hi1 > 1000 then hi1 + (hi1 - 1000) else hi1
  (lo2, hi2)

/-- The per-box body of handleSyncSize: re-center the source dimensions on
the target box's own center, then run the out-of-bounds shift logic on
each axis. -/
def syncOne (targetW targetH : ℚ) (box : BoundingBox) : BoundingBox :=
  let cx := (box.xmin + box.xmax) / 2
  let cy := (box.ymin + box.ymax) / 2
  let xb := shiftAxis (cx - targetW / 2) (cx + targetW / 2)
  let yb := shiftAxis (cy - targetH / 2) (cy + targetH / 2)
  { xmin := xb.1, ymin := yb.1, xmax := xb.2, ymax := yb.2 }

/-- The boxes.map of handleSyncSize with its (box, idx) callback: the
source box is returned unchanged, every other box is recomputed. -/
def syncMap (sel : ℕ) (targetW targetH : ℚ) : ℕ → List BoundingBox → List BoundingBox
  | _, [] => []
  | i, b :: rest =>
    (if i = sel then b else syncOne targetW targetH b) :: syncMap sel targetW targetH (i + 1) rest

/-- handleSyncSize of CropAdjuster.tsx: with a selected source box, set
every other box to the source width and height about its own center (the
null-selection guard leaves the working set unchanged). -/
def handleSyncSize (boxes : List BoundingBox) (selectedBoxIndex : ℕ) : List BoundingBox :=
  match boxes[selectedBoxIndex]? with
  | none => boxes
  | some sourceBox =>
    let targetW := sourceBox.xmax - sourceBox.xmin
    let targetH := sourceBox.ymax - sourceBox.ymin
    syncMap selectedBoxIndex targetW targetH 0 boxes

/-- handleZoom of CropAdjuster.tsx: one zoom-control press adjusts the
scale by 1/4 in the given direction, clamped to [1/2, 4]. -/
def handleZoom (zoomIn : Bool) (prev : ℚ) : ℚ :=
  let delta := if zoomIn then (1/4 : ℚ) else -(1/4)
  min (max (1/2) (prev + delta)) 4

/-- The ctrl-wheel zoom of CropAdjuster.tsx: delta is the wheel deltaY
times -0.002, applied under the same [1/2, 4] clamp. -/
def handleWheel (deltaY : ℚ) (s : ℚ) : ℚ :=
  let delta := deltaY * (-(2/1000))
  min (max (1/2) (s + delta)) 4

/-- A zoom input: either a control press (zoom in or out) or a ctrl-wheel
gesture with some deltaY. -/
inductive ZoomOp where
  | button (zoomIn : Bool)
  | wheel (deltaY : ℚ)

/-- Apply one zoom input to the current scale. -/
def applyZoom (s : ℚ) : ZoomOp → ℚ
  | ZoomOp.button b => handleZoom b s
  | ZoomOp.wheel d => handleWheel d s

/-- The prev.filter((_, i) => i !== index) of handleDeleteBox, with the
filter callback index made explicit. -/
def deleteFilter (index : ℕ) : ℕ → List BoundingBox → List BoundingBox
  | _, [] => []
  | i, b :: rest =>
    if i = index then deleteFilter index (i + 1) rest
    else b :: deleteFilter index (i + 1) rest

/-- handleDeleteBox of CropAdjuster.tsx: drop the box at the given index
and clear the selection when it was the deleted one. -/
def handleDeleteBox (boxes : List BoundingBox) (selectedBoxIndex : Option ℕ) (index : ℕ) :
    List BoundingBox × Option ℕ :=
  (deleteFilter index 0 boxes,
   if selectedBoxIndex = some index then none else selectedBoxIndex)

/-- An image blob, abstracted to its decoded pixel dimensions.  Binary
content, object URLs and mime types play no role in the geometric claims. -/
structure Blob where
  width : ℚ
  height : ℚ
deriving DecidableEq, Repr

/-- upscaleSliceWithAI of src/utils/imageProcessor.ts, with the
enhancement collaborator abstracted to its outcome: on a returned image
part the enhanced blob is used, and on every failure path (missing key,
no image part, thrown error) the original blob is returned unchanged. -/
def upscaleSliceWithAI (response : Option Blob) (blob : Blob) : Blob :=
  match response with
  | some enhanced => enhanced
  | none => blob

/-- One element of the slices array of generateSlices (interface
ImageSlice, minus the derived object URL). -/
structure ImageSlice where
  id : ℕ
  blob : Blob
  row : ℕ
  col : ℕ
  width : ℚ
  height : ℚ
deriving DecidableEq, Repr

/-- interface GridDimensions of src/utils/imageProcessor.ts. -/
structure GridDimensions where
  rows : ℕ
  cols : ℕ
deriving DecidableEq, Repr

/-- interface SplitResult of src/utils/imageProcessor.ts. -/
structure SplitResult where
  slices : List ImageSlice
  dimensions : GridDimensions
deriving DecidableEq, Repr

/-- The sequential tile loop of generateSlices: crop the pixel rectangle
of each ordered box (the crop canvas has the box's pixel dimensions), run
the enhancement step for tile i, and record the id, grid position and the
result blob's own dimensions.  Browser-side crop and decode are modelled
as succeeding; the enhancement outcome for tile i is enhance i. -/
def buildSlices (enhance : ℕ → Option Blob) : ℕ → List SortedBox → List ImageSlice
  | _, [] => []
  | i, item :: rest =>
    let cropBlob : Blob := { width := item.box.w, height := item.box.h }
    let upscaledBlob := upscaleSliceWithAI (enhance i) cropBlob
    { id := i, blob := upscaledBlob, row := item.row, col := item.col,
      width := upscaledBlob.width, height := upscaledBlob.height } ::
      buildSlices enhance (i + 1) rest

/-- generateSlices of src/utils/imageProcessor.ts: reject an empty box
set with the terminal "No boxes to process." error, otherwise organize the
boxes and build the tiles sequentially. -/
def generateSlices (boxes : List BoundingBox) (width height : ℚ)
    (enhance : ℕ → Option Blob) : Except String SplitResult :=
  if boxes.length = 0 then Except.error "No boxes to process."
  else
    let org := organizeBoxes boxes width height
    Except.ok { slices := buildSlices enhance 0 org.sortedBoxes,
                dimensions := { rows := org.rows, cols := org.cols } }

/-- Width and height of a normalized box. -/
def boxDims (b : BoundingBox) : ℚ × ℚ := (b.xmax - b.xmin, b.ymax - b.ymin)

/-- The EditSession invariant on a box: bounds inside the canvas and a
positive extent on both axes. -/
def boxWithin (b : BoundingBox) : Prop :=
  0 ≤ b.xmin ∧ b.xmin < b.xmax ∧ b.xmax ≤ 1000 ∧
  0 ≤ b.ymin ∧ b.ymin < b.ymax ∧ b.ymax ≤ 1000

instance (b : BoundingBox) : Decidable (boxWithin b) := by
  unfold boxWithin; infer_instance

/-- The resize invariant: bounds inside the canvas and both dimensions at
least the 20-unit minimum size. -/
def sizeOk (b : BoundingBox) : Prop :=
  0 ≤ b.xmin ∧ b.xmax ≤ 1000 ∧ 0 ≤ b.ymin ∧ b.ymax ≤ 1000 ∧
  20 ≤ b.xmax - b.xmin ∧ 20 ≤ b.ymax - b.ymin

instance (b : BoundingBox) : Decidable (sizeOk b) := by
  unfold sizeOk; infer_instance

/-- One cell of an R x C uniform grid: column stride sx, row stride sy,
tile size tw x th, top-left corner of cell (0,0) at (x0, y0). -/
def gridBox (x0 y0 tw th sx sy : ℚ) (r c : ℕ) : BoundingBox :=
  { xmin := x0 + c * sx, ymin := y0 + r * sy,
    xmax := x0 + c * sx + tw, ymax := y0 + r * sy + th }

/-- The boxes of an R x C uniform grid, generated row-major. -/
def gridBoxes (R C : ℕ) (x0 y0 tw th sx sy : ℚ) : List BoundingBox :=
  (List.range R).flatMap (fun r => (List.range C).map (gridBox x0 y0 tw th sx sy r))

/-- All boxes of a block lie within the clustering threshold of anchor a:
each would join a row whose anchor cy is a. -/
def blockOk (a : ℚ) (B : List PixelBox) : Prop :=
  ∀ b ∈ B, |b.cy - a| < b.h * (1/2)

/-- The blocks of a list, walked after an open row with anchor a, are
exactly the rows the clustering pass will emit: each block head breaks
against the previous anchor and every block member fits its own head. -/
def anchorsBreak : ℚ → List (List PixelBox) → Prop
  | _, [] => True
  | _, [] :: _ => False
  | a, (b :: t) :: L =>
    ¬ |b.cy - a| < b.h * (1/2) ∧ blockOk b.cy (b :: t) ∧ anchorsBreak b.cy L

/-- A non-empty-blocks list that the clustering pass reproduces exactly. -/
def rowBlocksOk : List (List PixelBox) → Prop
  | [] => True
  | [] :: _ => False
  | (b :: t) :: L => blockOk b.cy (b :: t) ∧ anchorsBreak b.cy L

/-- The geometric parameters of a uniform grid: image pixel dimensions,
top-left corner of cell (0,0), tile size, and the column/row strides. -/
structure GridParams where
  width : ℚ
  height : ℚ
  x0 : ℚ
  y0 : ℚ
  tw : ℚ
  th : ℚ
  sx : ℚ
  sy : ℚ

/-- The pixel box of grid cell (r, c). -/
def pbc (P : GridParams) (r c : ℕ) : PixelBox :=
  toPixelBox P.width P.height (gridBox P.x0 P.y0 P.tw P.th P.sx P.sy r c)

/-- The pixel boxes of grid row r, in column order. -/
def pbRow (P : GridParams) (C : ℕ) (r : ℕ) : List PixelBox :=
  (List.range C).map (pbc P r)

/-! ## Theorems -/

/-- Claim C8: organizeBoxes applied to an empty list of boxes returns the
empty sequence with zero rows and zero columns, for every image size, and
(being a total function of the model) never throws. -/
theorem organizeBoxes_nil (width height : ℚ) :
    organizeBoxes [] width height = { sortedBoxes := [], rows := 0, cols := 0 } := rfl

/-- One move step preserves the canvas invariant and the exact size. -/
theorem moveBox_step (b : BoundingBox) (dx dy : ℚ) (hb : boxWithin b) :
    boxWithin (moveBox b dx dy) ∧ boxDims (moveBox b dx dy) = boxDims b := by
  obtain ⟨h1, h2, h3, h4, h5, h6⟩ := hb
  unfold moveBox boxWithin boxDims
  simp only
  refine ⟨⟨le_max_left _ _, by linarith, ?_, le_max_left _ _, by linarith, ?_⟩, by ring_nf⟩
  · have hle : max 0 (min (1000 - (b.xmax - b.xmin)) (b.xmin + dx)) ≤ 1000 - (b.xmax - b.xmin) :=
      max_le (by linarith) (min_le_left _ _)
    linarith
  · have hle : max 0 (min (1000 - (b.ymax - b.ymin)) (b.ymin + dy)) ≤ 1000 - (b.ymax - b.ymin) :=
      max_le (by linarith) (min_le_left _ _)
    linarith

/-- A whole drag sequence preserves the canvas invariant and the size. -/
theorem moveBox_fold (deltas : List (ℚ × ℚ)) : ∀ b : BoundingBox, boxWithin b →
    boxWithin (deltas.foldl (fun acc d => moveBox acc d.1 d.2) b) ∧
    boxDims (deltas.foldl (fun acc d => moveBox acc d.1 d.2) b) = boxDims b := by
  induction deltas with
  | nil => exact fun b hb => ⟨hb, rfl⟩
  | cons d ds ih =>
    intro b hb
    have h := moveBox_step b d.1 d.2 hb
    have h2 := ih (moveBox b d.1 d.2) h.1
    exact ⟨h2.1, h2.2.trans h.2⟩

/-- Claim C3: for a box inside the canvas, every sequence of move
operations leaves the width and height exactly unchanged and keeps
0 <= xmin < xmax <= 1000 and 0 <= ymin < ymax <= 1000; a move whose
would-be xmin is negative is clamped to xmin = 0 with size preserved. -/
theorem moveBox_spec (b : BoundingBox) (hb : boxWithin b) (deltas : List (ℚ × ℚ)) :
    (boxWithin (deltas.foldl (fun acc d => moveBox acc d.1 d.2) b) ∧
     boxDims (deltas.foldl (fun acc d => moveBox acc d.1 d.2) b) = boxDims b) ∧
    ∀ dx dy : ℚ, b.xmin + dx < 0 →
      (moveBox b dx dy).xmin = 0 ∧ boxDims (moveBox b dx dy) = boxDims b := by
  refine ⟨moveBox_fold deltas b hb, fun dx dy hneg => ⟨?_, (moveBox_step b dx dy hb).2⟩⟩
  unfold moveBox
  simp only
  exact max_eq_left (le_of_lt (lt_of_le_of_lt (min_le_right _ _) hneg))

/-- Witness for claim C3 at a concrete box and drag sequence. -/
theorem moveBox_spec_witness :
    (boxWithin ([((-50 : ℚ), (500 : ℚ)), (2000, -3)].foldl
        (fun acc d => moveBox acc d.1 d.2) ⟨10, 10, 110, 110⟩) ∧
     boxDims ([((-50 : ℚ), (500 : ℚ)), (2000, -3)].foldl
        (fun acc d => moveBox acc d.1 d.2) ⟨10, 10, 110, 110⟩) = boxDims ⟨10, 10, 110, 110⟩) ∧
    ∀ dx dy : ℚ, (BoundingBox.mk 10 10 110 110).xmin + dx < 0 →
      (moveBox ⟨10, 10, 110, 110⟩ dx dy).xmin = 0 ∧
      boxDims (moveBox ⟨10, 10, 110, 110⟩ dx dy) = boxDims ⟨10, 10, 110, 110⟩ :=
  moveBox_spec ⟨10, 10, 110, 110⟩ (by norm_num [boxWithin]) [(-50, 500), (2000, -3)]

/-- Every single zoom adjustment lands inside the [1/2, 4] clamp. -/
theorem applyZoom_mem (s : ℚ) (op : ZoomOp) :
    1/2 ≤ applyZoom s op ∧ applyZoom s op ≤ 4 := by
  cases op with
  | button b =>
    exact ⟨le_min (le_max_left _ _) (by norm_num), min_le_right _ _⟩
  | wheel d =>
    exact ⟨le_min (le_max_left _ _) (by norm_num), min_le_right _ _⟩

/-- The scale stays in [1/2, 4] across every sequence of zoom inputs. -/
theorem zoom_fold (ops : List ZoomOp) : ∀ s : ℚ, 1/2 ≤ s → s ≤ 4 →
    1/2 ≤ ops.foldl applyZoom s ∧ ops.foldl applyZoom s ≤ 4 := by
  induction ops with
  | nil => exact fun s h1 h2 => ⟨h1, h2⟩
  | cons op ops ih =>
    intro s h1 h2
    have h := applyZoom_mem s op
    exact ih _ h.1 h.2

/-- Claim C9: starting inside [1/2, 4], the zoom scale stays in [1/2, 4]
after every sequence of zoom operations; an unclamped control press
changes the scale by exactly 1/4 up or down, and the wheel gesture adds a
delta proportional to the input magnitude under the same clamp. -/
theorem zoom_spec (s : ℚ) (ops : List ZoomOp) (h1 : 1/2 ≤ s) (h2 : s ≤ 4) :
    (1/2 ≤ ops.foldl applyZoom s ∧ ops.foldl applyZoom s ≤ 4) ∧
    (∀ s2 : ℚ, 1/2 ≤ s2 + 1/4 → s2 + 1/4 ≤ 4 → handleZoom true s2 = s2 + 1/4) ∧
    (∀ s2 : ℚ, 1/2 ≤ s2 - 1/4 → s2 - 1/4 ≤ 4 → handleZoom false s2 = s2 - 1/4) ∧
    ∀ d s2 : ℚ, handleWheel d s2 = min (max (1/2) (s2 + d * (-(2/1000)))) 4 := by
  refine ⟨zoom_fold ops s h1 h2, fun s2 ha hb => ?_, fun s2 ha hb => ?_, fun d s2 => rfl⟩
  · unfold handleZoom
    norm_num
    rw [max_eq_right ha, min_eq_left hb]
  · unfold handleZoom
    norm_num
    rw [show s2 + -(1/4 : ℚ) = s2 - 1/4 by ring, max_eq_right ha, min_eq_left hb]

/-- Witness for claim C9 at a concrete start scale and input sequence. -/
theorem zoom_spec_witness :
    (1/2 ≤ [ZoomOp.button true, ZoomOp.wheel 300].foldl applyZoom (1 : ℚ) ∧
     [ZoomOp.button true, ZoomOp.wheel 300].foldl applyZoom (1 : ℚ) ≤ 4) ∧
    (∀ s2 : ℚ, 1/2 ≤ s2 + 1/4 → s2 + 1/4 ≤ 4 → handleZoom true s2 = s2 + 1/4) ∧
    (∀ s2 : ℚ, 1/2 ≤ s2 - 1/4 → s2 - 1/4 ≤ 4 → handleZoom false s2 = s2 - 1/4) ∧
    ∀ d s2 : ℚ, handleWheel d s2 = min (max (1/2) (s2 + d * (-(2/1000)))) 4 :=
  zoom_spec 1 [ZoomOp.button true, ZoomOp.wheel 300] (by norm_num) (by norm_num)

/-- The low-edge resize clamp keeps the edge at or above 0 and at least
20 below the stationary high edge. -/
theorem resize_low_ok (a b d : ℚ) (h0 : 0 ≤ a) (h2 : 20 ≤ b - a) :
    0 ≤ min (b - 20) (max 0 (a + d)) ∧ min (b - 20) (max 0 (a + d)) ≤ b - 20 :=
  ⟨le_min (by linarith) (le_max_left _ _), min_le_left _ _⟩

/-- The high-edge resize clamp keeps the edge at or below 1000 and at
least 20 above the stationary low edge. -/
theorem resize_high_ok (a b d : ℚ) (h1 : b ≤ 1000) (h2 : 20 ≤ b - a) :
    max (a + 20) (min 1000 (b + d)) ≤ 1000 ∧ a + 20 ≤ max (a + 20) (min 1000 (b + d)) :=
  ⟨max_le (by linarith) (min_le_left _ _), le_max_left _ _⟩

/-- Claim C4 (amended): for a box whose bounds lie in [0,1000] and whose
width and height are both at least 20, every resize operation (any of the
eight handles, any delta) yields a box with both dimensions at least 20
and all four bounds in [0,1000], and every edge not named in the handle
keeps its snapshot value.  The original claim is false for an arbitrary
box (see the counterexample); the precondition is what the edit session
maintains. -/
theorem resizeBox_spec (b : BoundingBox) (hb : sizeOk b) (handle : Handle) (dx dy : ℚ) :
    sizeOk (resizeBox b handle dx dy) ∧
    (handle.hasW = false → (resizeBox b handle dx dy).xmin = b.xmin) ∧
    (handle.hasE = false → (resizeBox b handle dx dy).xmax = b.xmax) ∧
    (handle.hasN = false → (resizeBox b handle dx dy).ymin = b.ymin) ∧
    (handle.hasS = false → (resizeBox b handle dx dy).ymax = b.ymax) := by
  obtain ⟨h1, h2, h3, h4, h5, h6⟩ := hb
  have hx1 := resize_low_ok b.xmin b.xmax dx h1 h5
  have hx2 := resize_high_ok b.xmin b.xmax dx h2 h5
  have hy1 := resize_low_ok b.ymin b.ymax dy h3 h6
  have hy2 := resize_high_ok b.ymin b.ymax dy h4 h6
  cases handle <;>
      refine ⟨⟨?_, ?_, ?_, ?_, ?_, ?_⟩, ?_, ?_, ?_, ?_⟩ <;>
    simp only [resizeBox, Handle.hasW, Handle.hasE, Handle.hasN, Handle.hasS,
      Bool.false_eq_true, Bool.true_eq_false, if_false, if_true] <;>
    first
      | exact False.elim
      | exact fun _ => rfl
      | exact fun _ => trivial
      | linarith [hx1.1, hx1.2, hx2.1, hx2.2, hy1.1, hy1.2, hy2.1, hy2.2]

/-- Claim C4 counterexample: the thin (but canvas-contained) box
[990,1000] x [0,100] resized with the east handle and a negative delta
gets xmax = max(xmin + 20, min(1000, 900)) = 1010, outside the canvas,
so the claim is false for an arbitrary box. -/
theorem resizeBox_cex :
    (resizeBox ⟨990, 0, 1000, 100⟩ Handle.e (-100) 0).xmax = 1010 ∧
    ¬ sizeOk (resizeBox ⟨990, 0, 1000, 100⟩ Handle.e (-100) 0) := by
  norm_num [resizeBox, Handle.hasW, Handle.hasE, Handle.hasN, Handle.hasS, sizeOk]

/-- Witness for the amended claim C4 at a concrete box and resize. -/
theorem resizeBox_spec_witness :
    sizeOk (resizeBox ⟨100, 100, 300, 300⟩ Handle.se 1000 (-1000)) ∧
    (Handle.hasW Handle.se = false →
      (resizeBox ⟨100, 100, 300, 300⟩ Handle.se 1000 (-1000)).xmin =
        (BoundingBox.mk 100 100 300 300).xmin) ∧
    (Handle.hasE Handle.se = false →
      (resizeBox ⟨100, 100, 300, 300⟩ Handle.se 1000 (-1000)).xmax =
        (BoundingBox.mk 100 100 300 300).xmax) ∧
    (Handle.hasN Handle.se = false →
      (resizeBox ⟨100, 100, 300, 300⟩ Handle.se 1000 (-1000)).ymin =
        (BoundingBox.mk 100 100 300 300).ymin) ∧
    (Handle.hasS Handle.se = false →
      (resizeBox ⟨100, 100, 300, 300⟩ Handle.se 1000 (-1000)).ymax =
        (BoundingBox.mk 100 100 300 300).ymax) :=
  resizeBox_spec ⟨100, 100, 300, 300⟩ (by norm_num [sizeOk]) Handle.se 1000 (-1000)

/-- The out-of-bounds shift logic always preserves the interval length:
the low-edge clamp inside the high-edge branch can never fire, because
after the low-edge check the low edge is nonnegative and the high-edge
branch adds a positive diff to it. -/
theorem shiftAxis_sub (lo hi : ℚ) : (shiftAxis lo hi).2 - (shiftAxis lo hi).1 = hi - lo := by
  simp only [shiftAxis]
  split_ifs <;> linarith

/-- Every box produced by the per-box body of handleSyncSize has exactly
the source dimensions. -/
theorem syncOne_dims (targetW targetH : ℚ) (b : BoundingBox) :
    boxDims (syncOne targetW targetH b) = (targetW, targetH) := by
  unfold syncOne boxDims
  simp only [Prod.mk.injEq]
  rw [shiftAxis_sub, shiftAxis_sub]
  constructor <;> ring

/-- Element lookup through the indexed map of handleSyncSize. -/
theorem syncMap_getElem? (sel : ℕ) (tW tH : ℚ) : ∀ (l : List BoundingBox) (i j : ℕ),
    (syncMap sel tW tH i l)[j]? =
      (l[j]?).map (fun b => if i + j = sel then b else syncOne tW tH b) := by
  intro l
  induction l with
  | nil => intro i j; simp [syncMap]
  | cons b rest ih =>
    intro i j
    cases j with
    | zero => simp [syncMap]
    | succ j2 =>
      simp only [syncMap, List.getElem?_cons_succ, ih (i + 1) j2,
        show i + (j2 + 1) = i + 1 + j2 from by omega]

/-- Claim C6: Dimension-Sync is idempotent with respect to size: a second
handleSyncSize with the same source changes no box's width or height
(every non-source box already has exactly the source dimensions after the
first application, and the source box itself is never modified). -/
theorem handleSyncSize_idem (boxes : List BoundingBox) (sel i : ℕ) :
    ((handleSyncSize (handleSyncSize boxes sel) sel)[i]?).map boxDims =
    ((handleSyncSize boxes sel)[i]?).map boxDims := by
  cases hsel : boxes[sel]? with
  | none =>
    have h1 : handleSyncSize boxes sel = boxes := by
      unfold handleSyncSize; rw [hsel]
    rw [h1, handleSyncSize, hsel]
  | some src =>
    have h1 : handleSyncSize boxes sel =
        syncMap sel (src.xmax - src.xmin) (src.ymax - src.ymin) 0 boxes := by
      unfold handleSyncSize; rw [hsel]
    rw [h1]
    have hSsel : (syncMap sel (src.xmax - src.xmin) (src.ymax - src.ymin) 0 boxes)[sel]? =
        some src := by
      rw [syncMap_getElem?]
      simp [hsel]
    have h2 : handleSyncSize (syncMap sel (src.xmax - src.xmin) (src.ymax - src.ymin) 0 boxes)
          sel =
        syncMap sel (src.xmax - src.xmin) (src.ymax - src.ymin) 0
          (syncMap sel (src.xmax - src.xmin) (src.ymax - src.ymin) 0 boxes) := by
      unfold handleSyncSize; rw [hSsel]
    rw [h2, syncMap_getElem?, syncMap_getElem?]
    cases hbi : boxes[i]? with
    | none => simp [hbi]
    | some bi =>
      by_cases hisel : i = sel
      · simp [hbi, hisel]
      · simp [hbi, hisel, syncOne_dims]

/-- Claim C2 evaluation at the failing input: the source box is 200 x 200,
the target box is centered at (950, 950), so the synced target should be
shifted back in-bounds to [800,1000] on both axes; instead the right/bottom
checks add the positive diff and produce [900,1100] x [900,1100], outside
the canvas on the far edges even though the box fits. -/
theorem handleSyncSize_shifts_outward :
    (handleSyncSize [⟨0, 0, 200, 200⟩, ⟨940, 940, 960, 960⟩] 0)[1]? =
      some ⟨900, 900, 1100, 1100⟩ ∧
    ∀ b : BoundingBox,
      (handleSyncSize [⟨0, 0, 200, 200⟩, ⟨940, 940, 960, 960⟩] 0)[1]? = some b →
        ¬ (b.xmax ≤ 1000 ∧ b.ymax ≤ 1000) := by
  constructor
  · norm_num [handleSyncSize, syncMap, syncOne, shiftAxis]
  · intro b hb
    have h1 : (handleSyncSize [⟨0, 0, 200, 200⟩, ⟨940, 940, 960, 960⟩] 0)[1]? =
        some (⟨900, 900, 1100, 1100⟩ : BoundingBox) := by
      norm_num [handleSyncSize, syncMap, syncOne, shiftAxis]
    rw [h1] at hb
    cases hb
    norm_num

/-- Once the filter counter has passed the deleted index, nothing else is
dropped. -/
theorem deleteFilter_of_lt (index : ℕ) : ∀ (l : List BoundingBox) (i : ℕ), index < i →
    deleteFilter index i l = l := by
  intro l
  induction l with
  | nil => intro i _; rfl
  | cons b rest ih =>
    intro i h
    unfold deleteFilter
    rw [if_neg (by omega), ih (i + 1) (by omega)]

/-- The index filter of handleDeleteBox is exactly eraseIdx (relative to
the running counter). -/
theorem deleteFilter_eraseIdx (index : ℕ) : ∀ (l : List BoundingBox) (i : ℕ), i ≤ index →
    deleteFilter index i l = l.eraseIdx (index - i) := by
  intro l
  induction l with
  | nil => intro i _; simp [deleteFilter]
  | cons b rest ih =>
    intro i h
    by_cases hi : i = index
    · unfold deleteFilter
      rw [if_pos hi, deleteFilter_of_lt index rest (i + 1) (by omega),
        show index - i = 0 from by omega]
      rfl
    · unfold deleteFilter
      rw [if_neg hi, ih (i + 1) (by omega), show index - i = (index - (i + 1)) + 1 from by omega]
      rfl

/-- Claim C10: handleDeleteBox removes exactly the box at the given index
(preserving the order of the rest), clears the selection only when the
deleted index equals the selected one, and when a box below the selection
is deleted the numeric selection index is kept unchanged, so it now
denotes the slot that previously held the next box. -/
theorem handleDeleteBox_spec (boxes : List BoundingBox) (sel : Option ℕ) (index : ℕ) :
    (handleDeleteBox boxes sel index).1 = boxes.eraseIdx index ∧
    (handleDeleteBox boxes sel index).2 = (if sel = some index then none else sel) ∧
    ∀ s : ℕ, sel = some s → index < s →
      (handleDeleteBox boxes sel index).2 = some s ∧
      ((handleDeleteBox boxes sel index).1)[s]? = boxes[s + 1]? := by
  have herase : (handleDeleteBox boxes sel index).1 = boxes.eraseIdx index := by
    show deleteFilter index 0 boxes = _
    rw [deleteFilter_eraseIdx index boxes 0 (Nat.zero_le _), Nat.sub_zero]
  refine ⟨herase, rfl, fun s hs hlt => ⟨?_, ?_⟩⟩
  · show (if sel = some index then none else sel) = some s
    rw [if_neg (by rw [hs]; simp; omega), hs]
  · rw [herase]
    exact List.getElem?_eraseIdx_of_ge boxes index s (by omega)

/-- Witness for claim C10: deleting box 0 with box 2 selected keeps the
selection index 2, which now denotes the slot of the former box 3. -/
theorem handleDeleteBox_spec_witness :
    (handleDeleteBox [⟨0, 0, 100, 100⟩, ⟨100, 0, 200, 100⟩, ⟨200, 0, 300, 100⟩]
        (some 2) 0).2 = some 2 ∧
    ((handleDeleteBox [⟨0, 0, 100, 100⟩, ⟨100, 0, 200, 100⟩, ⟨200, 0, 300, 100⟩]
        (some 2) 0).1)[2]? =
      ([⟨0, 0, 100, 100⟩, ⟨100, 0, 200, 100⟩, ⟨200, 0, 300, 100⟩] :
        List BoundingBox)[2 + 1]? :=
  (handleDeleteBox_spec [⟨0, 0, 100, 100⟩, ⟨100, 0, 200, 100⟩, ⟨200, 0, 300, 100⟩]
      (some 2) 0).2.2 2 rfl (by omega)

/-- buildSlices produces one tile per ordered box. -/
theorem buildSlices_length (enhance : ℕ → Option Blob) : ∀ (L : List SortedBox) (i : ℕ),
    (buildSlices enhance i L).length = L.length := by
  intro L
  induction L with
  | nil => intro i; rfl
  | cons item rest ih => intro i; simp [buildSlices, ih]

/-- When the enhancement outcome for a tile is a failure, that tile is
still produced, carrying the unenhanced crop blob and the crop's own
pixel dimensions. -/
theorem buildSlices_fallback (enhance : ℕ → Option Blob) : ∀ (L : List SortedBox) (i j : ℕ),
    enhance (i + j) = none →
    ((buildSlices enhance i L)[j]?).map (fun s => (s.width, s.height, s.blob)) =
      (L[j]?).map (fun item => (item.box.w, item.box.h,
        ({ width := item.box.w, height := item.box.h } : Blob))) := by
  intro L
  induction L with
  | nil => intro i j _; rfl
  | cons item rest ih =>
    intro i j h
    cases j with
    | zero =>
      have h0 : enhance i = none := by simpa using h
      simp [buildSlices, upscaleSliceWithAI, h0]
    | succ j2 =>
      have h2 : enhance (i + 1 + j2) = none := by
        rw [show i + 1 + j2 = i + (j2 + 1) from by omega]
        exact h
      simp only [buildSlices, List.getElem?_cons_succ]
      exact ih (i + 1) j2 h2

/-- Claim C5: generateSlices fails with the terminal error exactly on an
empty confirmed-box set; for a non-empty set it succeeds, produces one
tile per organized box, and a failed enhancement for tile j is not fatal:
tile j is still present, carrying the unenhanced crop and the crop's own
dimensions, and the remaining tiles are unaffected. -/
theorem generateSlices_spec :
    (∀ (w h : ℚ) (enhance : ℕ → Option Blob),
      generateSlices [] w h enhance = Except.error "No boxes to process.") ∧
    ∀ (boxes : List BoundingBox) (w h : ℚ) (enhance : ℕ → Option Blob), boxes ≠ [] →
      ∃ res : SplitResult, generateSlices boxes w h enhance = Except.ok res ∧
        res.dimensions = ⟨(organizeBoxes boxes w h).rows, (organizeBoxes boxes w h).cols⟩ ∧
        res.slices.length = (organizeBoxes boxes w h).sortedBoxes.length ∧
        ∀ j : ℕ, enhance j = none →
          ((res.slices)[j]?).map (fun s => (s.width, s.height, s.blob)) =
            (((organizeBoxes boxes w h).sortedBoxes)[j]?).map (fun item =>
              (item.box.w, item.box.h,
                ({ width := item.box.w, height := item.box.h } : Blob))) := by
  constructor
  · intro w h enhance; rfl
  · intro boxes w h enhance hne
    have hlen : ¬ boxes.length = 0 := by simpa using hne
    refine ⟨{ slices := buildSlices enhance 0 (organizeBoxes boxes w h).sortedBoxes,
              dimensions := ⟨(organizeBoxes boxes w h).rows, (organizeBoxes boxes w h).cols⟩ },
      ?_, rfl, buildSlices_length enhance _ 0, fun j hj => ?_⟩
    · unfold generateSlices
      rw [if_neg hlen]
    · exact buildSlices_fallback enhance _ 0 j (by simpa using hj)

/-- Witness for claim C5 at a one-box set whose enhancement always fails. -/
theorem generateSlices_spec_witness :
    ∃ res : SplitResult,
      generateSlices [⟨0, 0, 100, 100⟩] 1000 1000 (fun _ => none) = Except.ok res ∧
        res.dimensions = ⟨(organizeBoxes [⟨0, 0, 100, 100⟩] 1000 1000).rows,
          (organizeBoxes [⟨0, 0, 100, 100⟩] 1000 1000).cols⟩ ∧
        res.slices.length = (organizeBoxes [⟨0, 0, 100, 100⟩] 1000 1000).sortedBoxes.length ∧
        ∀ j : ℕ, (fun _ : ℕ => (none : Option Blob)) j = none →
          ((res.slices)[j]?).map (fun s => (s.width, s.height, s.blob)) =
            (((organizeBoxes [⟨0, 0, 100, 100⟩] 1000 1000).sortedBoxes)[j]?).map (fun item =>
              (item.box.w, item.box.h,
                ({ width := item.box.w, height := item.box.h } : Blob))) :=
  generateSlices_spec.2 [⟨0, 0, 100, 100⟩] 1000 1000 (fun _ => none) (by simp)

/-- A box that already has the source dimensions and sits inside the
canvas is a fixed point of the per-box sync body. -/
theorem syncOne_fixed (tW tH : ℚ) (b : BoundingBox)
    (hdims : boxDims b = (tW, tH)) (h0 : 0 ≤ b.xmin) (h1 : b.xmax ≤ 1000)
    (h2 : 0 ≤ b.ymin) (h3 : b.ymax ≤ 1000) :
    syncOne tW tH b = b := by
  have hW : b.xmax - b.xmin = tW := congrArg Prod.fst hdims
  have hH : b.ymax - b.ymin = tH := congrArg Prod.snd hdims
  have e1 : (b.xmin + b.xmax) / 2 - tW / 2 = b.xmin := by rw [← hW]; ring
  have e2 : (b.xmin + b.xmax) / 2 + tW / 2 = b.xmax := by rw [← hW]; ring
  have e3 : (b.ymin + b.ymax) / 2 - tH / 2 = b.ymin := by rw [← hH]; ring
  have e4 : (b.ymin + b.ymax) / 2 + tH / 2 = b.ymax := by rw [← hH]; ring
  simp only [syncOne, shiftAxis]
  rw [e1, e2, e3, e4]
  split_ifs <;> first | rfl | (exfalso; linarith)

/-- The sync map is the identity when the per-box body fixes every box. -/
theorem syncMap_id (sel : ℕ) (tW tH : ℚ) : ∀ (l : List BoundingBox) (i : ℕ),
    (∀ b ∈ l, syncOne tW tH b = b) → syncMap sel tW tH i l = l := by
  intro l
  induction l with
  | nil => intro i _; rfl
  | cons b rest ih =>
    intro i hall
    unfold syncMap
    rw [ih (i + 1) (fun x hx => hall x (List.mem_cons_of_mem b hx))]
    by_cases hi : i = sel
    · rw [if_pos hi]
    · rw [if_neg hi, hall b (List.mem_cons_self b rest)]

/-- Claim C7 (amended): when every box of the working set already has the
source box's exact width and height and lies inside the canvas,
Dimension-Sync is the identity on the working set, so organizeBoxes
returns the same result (in particular the same (row, col) for each box)
before and after the sync.  The original claim, quantified over every
working set, is false: the sync changes box heights, and the clustering
threshold depends on each box's own height (see the counterexample). -/
theorem organize_sync_roundtrip (boxes : List BoundingBox) (sel : ℕ) (W H : ℚ)
    (hall : ∀ b ∈ boxes, boxDims b = (W, H) ∧
      0 ≤ b.xmin ∧ b.xmax ≤ 1000 ∧ 0 ≤ b.ymin ∧ b.ymax ≤ 1000)
    (width height : ℚ) :
    organizeBoxes (handleSyncSize boxes sel) width height =
      organizeBoxes boxes width height := by
  have hsync : handleSyncSize boxes sel = boxes := by
    unfold handleSyncSize
    cases hsel : boxes[sel]? with
    | none => rfl
    | some src =>
      obtain ⟨hsd, _, _, _, _⟩ := hall src (List.getElem?_mem hsel)
      have hsW : src.xmax - src.xmin = W := congrArg Prod.fst hsd
      have hsH : src.ymax - src.ymin = H := congrArg Prod.snd hsd
      show syncMap sel (src.xmax - src.xmin) (src.ymax - src.ymin) 0 boxes = boxes
      rw [hsW, hsH]
      refine syncMap_id sel W H boxes 0 (fun b hb => ?_)
      obtain ⟨hd, h0, h1, h2, h3⟩ := hall b hb
      exact syncOne_fixed W H b hd h0 h1 h2 h3
  rw [hsync]

/-- Witness for the amended claim C7 at a concrete equal-size working set. -/
theorem organize_sync_roundtrip_witness :
    organizeBoxes (handleSyncSize [⟨0, 0, 100, 100⟩, ⟨200, 0, 300, 100⟩] 0) 1000 1000 =
      organizeBoxes [⟨0, 0, 100, 100⟩, ⟨200, 0, 300, 100⟩] 1000 1000 :=
  organize_sync_roundtrip [⟨0, 0, 100, 100⟩, ⟨200, 0, 300, 100⟩] 0 100 100
    (by intro b hb; fin_cases hb <;> norm_num [boxDims]) 1000 1000

/-- Claim C7 counterexample: on the working set of a 100 x 100 source and
an 800-tall box to its right, organizeBoxes puts both boxes in one row
(the tall box's half-height threshold of 400 exceeds the 350 cy gap), but
after Dimension-Sync makes both boxes 100 x 100 the threshold shrinks to
50 and the same centers split into two rows: the second box moves from
(row, col) = (0, 1) to (1, 0), so the sync does change the grid order. -/
theorem organize_sync_cex :
    ((handleSyncSize [⟨0, 0, 100, 100⟩, ⟨200, 0, 300, 800⟩] 0).map boxDims =
      [(100, 100), (100, 100)]) ∧
    ((organizeBoxes [⟨0, 0, 100, 100⟩, ⟨200, 0, 300, 800⟩] 1000 1000).sortedBoxes.map
        (fun s => (s.box.cx, s.row, s.col)) = [(50, 0, 0), (250, 0, 1)]) ∧
    ((organizeBoxes (handleSyncSize [⟨0, 0, 100, 100⟩, ⟨200, 0, 300, 800⟩] 0)
        1000 1000).sortedBoxes.map
        (fun s => (s.box.cx, s.row, s.col)) = [(50, 0, 0), (250, 1, 0)]) := by
  norm_num [handleSyncSize, syncMap, syncOne, shiftAxis, boxDims, organizeBoxes, toPixelBox,
    sortByKey, insertByKey, clusterRows, clusterGo, assignRows, assignRow]

/-- A stable key-sort leaves a list that is already in nondecreasing key
order unchanged. -/
theorem sortByKey_eq_of_chain' {α : Type} (key : α → ℚ) :
    ∀ l : List α, l.Chain' (fun a b => key a ≤ key b) → sortByKey key l = l := by
  intro l
  induction l with
  | nil => intro _; rfl
  | cons a l2 ih =>
    intro h
    have hl := (List.chain'_cons'.mp h).2
    rw [sortByKey, ih hl]
    cases l2 with
    | nil => rfl
    | cons b l3 =>
      simp only [insertByKey]
      rw [if_pos (List.chain'_cons.mp h).1]

/-- Walking a block that entirely fits the open row's anchor just extends
the open row. -/
theorem clusterGo_block (a : ℚ) : ∀ (B cur rest : List PixelBox),
    (∀ x ∈ B, |x.cy - a| < x.h * (1/2)) →
    clusterGo a cur (B ++ rest) = clusterGo a (cur ++ B) rest := by
  intro B
  induction B with
  | nil => intro cur rest _; rw [List.append_nil]; rfl
  | cons x B2 ih =>
    intro cur rest hB
    have hrec := ih (cur ++ [x]) rest (fun y hy => hB y (List.mem_cons_of_mem x hy))
    rw [show (cur ++ [x]) ++ B2 = cur ++ x :: B2 by simp] at hrec
    rw [List.cons_append]
    simp only [clusterGo]
    rw [if_pos (hB x (List.mem_cons_self x B2))]
    exact hrec

/-- With an anchorsBreak block structure ahead, the clustering loop emits
the open row and then reproduces the blocks exactly. -/
theorem clusterGo_flatten : ∀ (L : List (List PixelBox)) (a : ℚ) (cur : List PixelBox),
    anchorsBreak a L → clusterGo a cur L.flatten = cur :: L := by
  intro L
  induction L with
  | nil => intro a cur _; rfl
  | cons B L2 ih =>
    intro a cur h
    cases B with
    | nil => exact absurd h (by simp [anchorsBreak])
    | cons b t =>
      obtain ⟨h1, h2, h3⟩ := h
      rw [List.flatten_cons, List.cons_append]
      simp only [clusterGo]
      rw [if_neg h1]
      congr 1
      rw [clusterGo_block b.cy t [b] L2.flatten (fun y hy => h2 y (List.mem_cons_of_mem b hy))]
      exact ih b.cy (b :: t) h3

/-- The clustering pass reproduces a rowBlocksOk block list exactly. -/
theorem clusterRows_flatten : ∀ L : List (List PixelBox), rowBlocksOk L →
    clusterRows L.flatten = L := by
  intro L h
  cases L with
  | nil => rfl
  | cons B L2 =>
    cases B with
    | nil => exact absurd h (by simp [rowBlocksOk])
    | cons b t =>
      obtain ⟨h1, h2⟩ := h
      rw [List.flatten_cons, List.cons_append]
      simp only [clusterRows]
      rw [clusterGo_block b.cy t [b] L2.flatten (fun y hy => h1 y (List.mem_cons_of_mem b hy))]
      exact clusterGo_flatten L2 b.cy (b :: t) h2

/-- The running maximum of row lengths over rows of constant length. -/
theorem foldl_max_length {α : Type} (C : ℕ) : ∀ L : List (List α), (∀ r ∈ L, r.length = C) →
    ∀ a : ℕ, L ≠ [] → L.foldl (fun m r => max m r.length) a = max a C := by
  intro L
  induction L with
  | nil => intro _ a h; exact absurd rfl h
  | cons x L2 ih =>
    intro hlen a _
    rw [List.foldl_cons, hlen x (List.mem_cons_self x L2)]
    by_cases h2 : L2 = []
    · subst h2; rfl
    · rw [ih (fun r hr => hlen r (List.mem_cons_of_mem x hr)) (max a C) h2, max_assoc, max_self]

/-- Column assignment over an index range in step with the counter. -/
theorem assignRow_map_range' (ri : ℕ) (g : ℕ → PixelBox) : ∀ m c0 : ℕ,
    assignRow ri c0 ((List.range' c0 m).map g) =
      (List.range' c0 m).map (fun c => ⟨g c, ri, c⟩) := by
  intro m
  induction m with
  | zero => intro c0; rfl
  | succ m2 ih =>
    intro c0
    rw [List.range'_succ, List.map_cons, List.map_cons]
    simp only [assignRow]
    rw [ih (c0 + 1)]

/-- The pixel cy of a grid cell depends only on its row. -/
theorem pbc_cy (P : GridParams) (r c : ℕ) :
    (pbc P r c).cy = (2 * P.y0 + 2 * (r : ℚ) * P.sy + P.th) / 2000 * P.height := by
  simp only [pbc, toPixelBox, gridBox]
  ring

/-- The pixel cx of a grid cell depends only on its column. -/
theorem pbc_cx (P : GridParams) (r c : ℕ) :
    (pbc P r c).cx = (2 * P.x0 + 2 * (c : ℚ) * P.sx + P.tw) / 2000 * P.width := by
  simp only [pbc, toPixelBox, gridBox]
  ring

/-- Every grid cell has the same pixel height. -/
theorem pbc_h (P : GridParams) (r c : ℕ) :
    (pbc P r c).h = P.th / 1000 * P.height := by
  simp only [pbc, toPixelBox, gridBox]
  ring

/-- cy is monotone in the row index. -/
theorem pbc_cy_mono (P : GridParams) (hsy : 0 ≤ P.sy) (hh : 0 ≤ P.height)
    {r r2 : ℕ} (hr : r ≤ r2) (c c2 : ℕ) : (pbc P r c).cy ≤ (pbc P r2 c2).cy := by
  rw [pbc_cy, pbc_cy]
  have hrr : (r : ℚ) ≤ (r2 : ℚ) := by exact_mod_cast hr
  have h1 : (r : ℚ) * P.sy ≤ (r2 : ℚ) * P.sy := mul_le_mul_of_nonneg_right hrr hsy
  have h3 : (2 * P.y0 + 2 * (r : ℚ) * P.sy + P.th) / 2000 ≤
      (2 * P.y0 + 2 * (r2 : ℚ) * P.sy + P.th) / 2000 :=
    (div_le_div_iff_of_pos_right (by norm_num)).mpr (by linarith)
  exact mul_le_mul_of_nonneg_right h3 hh

/-- cx is monotone in the column index. -/
theorem pbc_cx_mono (P : GridParams) (hsx : 0 ≤ P.sx) (hw : 0 ≤ P.width) (r : ℕ)
    {c c2 : ℕ} (hc : c ≤ c2) : (pbc P r c).cx ≤ (pbc P r c2).cx := by
  rw [pbc_cx, pbc_cx]
  have hcc : (c : ℚ) ≤ (c2 : ℚ) := by exact_mod_cast hc
  have h1 : (c : ℚ) * P.sx ≤ (c2 : ℚ) * P.sx := mul_le_mul_of_nonneg_right hcc hsx
  have h3 : (2 * P.x0 + 2 * (c : ℚ) * P.sx + P.tw) / 2000 ≤
      (2 * P.x0 + 2 * (c2 : ℚ) * P.sx + P.tw) / 2000 :=
    (div_le_div_iff_of_pos_right (by norm_num)).mpr (by linarith)
  exact mul_le_mul_of_nonneg_right h3 hw

/-- With rows separated by at least one tile height, a box of the next
row breaks the clustering threshold against any anchor of this row. -/
theorem pbc_cy_break (P : GridParams) (hth : 0 < P.th) (hsy : 2 * P.th ≤ P.sy)
    (hh : 0 < P.height) (r c c2 : ℕ) :
    ¬ |(pbc P (r + 1) c).cy - (pbc P r c2).cy| < (pbc P (r + 1) c).h * (1/2) := by
  rw [pbc_cy, pbc_cy, pbc_h, not_lt]
  have hcast : ((r + 1 : ℕ) : ℚ) = (r : ℚ) + 1 := by push_cast; ring
  rw [hcast]
  have hdiff : (2 * P.y0 + 2 * ((r : ℚ) + 1) * P.sy + P.th) / 2000 * P.height -
      (2 * P.y0 + 2 * (r : ℚ) * P.sy + P.th) / 2000 * P.height =
      P.sy / 1000 * P.height := by ring
  have hsy0 : 0 < P.sy := by linarith
  rw [hdiff, abs_of_nonneg (mul_nonneg (div_nonneg hsy0.le (by norm_num)) hh.le)]
  have hmul : 2 * P.th * P.height ≤ P.sy * P.height :=
    mul_le_mul_of_nonneg_right hsy hh.le
  nlinarith

/-- Membership in a grid row. -/
theorem pbRow_mem (P : GridParams) (C r : ℕ) {b : PixelBox} (hb : b ∈ pbRow P C r) :
    ∃ c, c < C ∧ b = pbc P r c := by
  obtain ⟨c, hc, rfl⟩ := List.mem_map.mp hb
  exact ⟨c, List.mem_range.mp hc, rfl⟩

/-- Each grid row has C cells. -/
theorem pbRow_length (P : GridParams) (C r : ℕ) : (pbRow P C r).length = C := by
  simp [pbRow]

/-- A nonempty grid row in cons form. -/
theorem pbRow_cons (P : GridParams) (C2 r : ℕ) :
    pbRow P (C2 + 1) r = pbc P r 0 :: (List.range' 1 C2).map (pbc P r) := by
  unfold pbRow
  rw [List.range_eq_range', List.range'_succ, List.map_cons]

/-- cy is constant along a row, so the row is a nondecreasing cy chain. -/
theorem chain'_cy_pbRow (P : GridParams) (C r : ℕ) :
    (pbRow P C r).Chain' (fun a b => a.cy ≤ b.cy) := by
  unfold pbRow
  rw [List.chain'_map]
  exact List.Pairwise.chain'
    ((List.pairwise_lt_range C).imp (fun _ => le_of_eq (by rw [pbc_cy, pbc_cy])))

/-- cx grows left to right along a row. -/
theorem chain'_cx_pbRow (P : GridParams) (hsx : 0 ≤ P.sx) (hw : 0 ≤ P.width) (C r : ℕ) :
    (pbRow P C r).Chain' (fun a b => a.cx ≤ b.cx) := by
  unfold pbRow
  rw [List.chain'_map]
  exact List.Pairwise.chain'
    ((List.pairwise_lt_range C).imp (fun hab => pbc_cx_mono P hsx hw r (le_of_lt hab)))

/-- Each row sorts to itself under the cx key. -/
theorem sortRow_grid (P : GridParams) (hsx : 0 ≤ P.sx) (hw : 0 ≤ P.width) (C r : ℕ) :
    sortByKey PixelBox.cx (pbRow P C r) = pbRow P C r :=
  sortByKey_eq_of_chain' PixelBox.cx (pbRow P C r) (chain'_cx_pbRow P hsx hw C r)

/-- The row-major concatenation of grid rows is nondecreasing in cy. -/
theorem chain'_cy_flatten (P : GridParams) (hsy : 0 ≤ P.sy) (hh : 0 ≤ P.height) (C : ℕ) :
    ∀ n r0 : ℕ, (((List.range' r0 n).map (pbRow P C)).flatten).Chain'
      (fun a b => a.cy ≤ b.cy) := by
  intro n
  induction n with
  | zero => intro r0; simp
  | succ n2 ih =>
    intro r0
    rw [List.range'_succ, List.map_cons, List.flatten_cons]
    refine List.Chain'.append (chain'_cy_pbRow P C r0) (ih (r0 + 1)) ?_
    intro x hx y hy
    have hx2 : x ∈ pbRow P C r0 := List.mem_of_mem_getLast? hx
    have hy2 : y ∈ ((List.range' (r0 + 1) n2).map (pbRow P C)).flatten :=
      List.mem_of_mem_head? hy
    obtain ⟨c1, _, rfl⟩ := pbRow_mem P C r0 hx2
    obtain ⟨row, hrow, hyrow⟩ := List.mem_flatten.mp hy2
    obtain ⟨r2, hr2, rfl⟩ := List.mem_map.mp hrow
    obtain ⟨c2, _, rfl⟩ := pbRow_mem P C r2 hyrow
    obtain ⟨i, _, rfl⟩ := List.mem_range'.mp hr2
    exact pbc_cy_mono P hsy hh (by omega) c1 c2

/-- Every cell of a row fits the clustering threshold of the row head. -/
theorem blockOk_pbRow (P : GridParams) (hth : 0 < P.th) (hh : 0 < P.height) (C r : ℕ) :
    blockOk ((pbc P r 0).cy) (pbRow P C r) := by
  intro b hb
  obtain ⟨c, _, rfl⟩ := pbRow_mem P C r hb
  rw [pbc_cy, pbc_cy, pbc_h]
  have hzero : (2 * P.y0 + 2 * (r : ℚ) * P.sy + P.th) / 2000 * P.height -
      (2 * P.y0 + 2 * (r : ℚ) * P.sy + P.th) / 2000 * P.height = 0 := by ring
  rw [hzero, abs_zero]
  have hpos : 0 < P.th / 1000 * P.height := mul_pos (div_pos hth (by norm_num)) hh
  linarith

/-- The rows after the first are exactly the blocks the clustering pass
emits: each row head breaks against the previous row head and each row
fits its own head. -/
theorem anchorsBreak_grid (P : GridParams) (hth : 0 < P.th) (hsy : 2 * P.th ≤ P.sy)
    (hh : 0 < P.height) (C2 : ℕ) : ∀ n r0 : ℕ,
    anchorsBreak ((pbc P r0 0).cy) ((List.range' (r0 + 1) n).map (pbRow P (C2 + 1))) := by
  intro n
  induction n with
  | zero => intro r0; trivial
  | succ n2 ih =>
    intro r0
    rw [List.range'_succ, List.map_cons, pbRow_cons]
    refine ⟨pbc_cy_break P hth hsy hh r0 0 0, ?_, ?_⟩
    · rw [← pbRow_cons]
      exact blockOk_pbRow P hth hh (C2 + 1) (r0 + 1)
    · exact ih (r0 + 1)

/-- The full grid row list is a block structure the clustering pass
reproduces exactly. -/
theorem rowBlocksOk_grid (P : GridParams) (hth : 0 < P.th) (hsy : 2 * P.th ≤ P.sy)
    (hh : 0 < P.height) (C2 R2 : ℕ) :
    rowBlocksOk ((List.range' 0 (R2 + 1)).map (pbRow P (C2 + 1))) := by
  rw [List.range'_succ, List.map_cons, pbRow_cons]
  refine ⟨?_, ?_⟩
  · rw [← pbRow_cons]
    exact blockOk_pbRow P hth hh (C2 + 1) 0
  · exact anchorsBreak_grid P hth hsy hh C2 R2 0

/-- Row-major assignment over the grid rows gives each cell its own
(row, col) indices. -/
theorem assignRows_grid (P : GridParams) (hsx : 0 ≤ P.sx) (hw : 0 ≤ P.width) (C : ℕ) :
    ∀ n r0 : ℕ, assignRows r0 ((List.range' r0 n).map (pbRow P C)) =
      (List.range' r0 n).flatMap
        (fun r => (List.range C).map (fun c => ⟨pbc P r c, r, c⟩)) := by
  intro n
  induction n with
  | zero => intro r0; rfl
  | succ n2 ih =>
    intro r0
    rw [List.range'_succ, List.map_cons, List.flatMap_cons]
    simp only [assignRows]
    rw [sortRow_grid P hsx hw C r0, ih (r0 + 1)]
    congr 1
    show assignRow r0 0 (pbRow P C r0) = _
    unfold pbRow
    rw [List.range_eq_range']
    exact assignRow_map_range' r0 (pbc P r0) C 0


/-- Inserting into a list permutes consing onto it. -/
theorem insertByKey_perm {α : Type} (key : α → ℚ) (a : α) :
    ∀ l : List α, (insertByKey key a l).Perm (a :: l) := by
  intro l
  induction l with
  | nil => exact List.Perm.refl _
  | cons b l2 ih =>
    simp only [insertByKey]
    by_cases h : key a ≤ key b
    · rw [if_pos h]
    · rw [if_neg h]
      exact (ih.cons b).trans (List.Perm.swap a b l2)

/-- The stable key sort permutes its input. -/
theorem sortByKey_perm {α : Type} (key : α → ℚ) : ∀ l : List α, (sortByKey key l).Perm l := by
  intro l
  induction l with
  | nil => exact List.Perm.refl _
  | cons a l2 ih =>
    simp only [sortByKey]
    exact (insertByKey_perm key a (sortByKey key l2)).trans (ih.cons a)

/-- Insertion preserves nondecreasing key order. -/
theorem insertByKey_sorted {α : Type} (key : α → ℚ) (a : α) : ∀ l : List α,
    l.Pairwise (fun x y => key x ≤ key y) →
    (insertByKey key a l).Pairwise (fun x y => key x ≤ key y) := by
  intro l
  induction l with
  | nil => intro _; exact List.pairwise_singleton _ _
  | cons b l2 ih =>
    intro h
    obtain ⟨hb, hl2⟩ := List.pairwise_cons.mp h
    simp only [insertByKey]
    by_cases hab : key a ≤ key b
    · rw [if_pos hab]
      refine List.pairwise_cons.mpr ⟨?_, h⟩
      intro z hz
      rcases List.mem_cons.mp hz with rfl | hz2
      · exact hab
      · exact hab.trans (hb z hz2)
    · rw [if_neg hab]
      refine List.pairwise_cons.mpr ⟨?_, ih hl2⟩
      intro z hz
      rcases List.mem_cons.mp ((insertByKey_perm key a l2).mem_iff.mp hz) with rfl | hz3
      · exact le_of_lt (not_le.mp hab)
      · exact hb z hz3

/-- The stable key sort produces nondecreasing key order. -/
theorem sortByKey_sorted {α : Type} (key : α → ℚ) : ∀ l : List α,
    (sortByKey key l).Pairwise (fun x y => key x ≤ key y) := by
  intro l
  induction l with
  | nil => exact List.Pairwise.nil
  | cons a l2 ih =>
    simp only [sortByKey]
    exact insertByKey_sorted key a _ ih

/-- A nondecreasing permutation of a strictly increasing list is that
list: sorted order is unique when the reference keys are distinct. -/
theorem sorted_perm_eq_of_strict {α : Type} (key : α → ℚ) :
    ∀ l2 l1 : List α, l1.Perm l2 →
    l1.Pairwise (fun x y => key x ≤ key y) →
    l2.Pairwise (fun x y => key x < key y) → l1 = l2 := by
  intro l2
  induction l2 with
  | nil => intro l1 hp _ _; exact hp.eq_nil
  | cons b t ih =>
    intro l1 hp hs1 hs2
    cases l1 with
    | nil => exact absurd hp.symm.eq_nil (by simp)
    | cons a t1 =>
      obtain ⟨hbt, ht⟩ := List.pairwise_cons.mp hs2
      obtain ⟨hat1, ht1s⟩ := List.pairwise_cons.mp hs1
      have hab : a = b := by
        rcases List.mem_cons.mp (hp.mem_iff.mp (List.mem_cons_self a t1)) with h | h
        · exact h
        · exfalso
          have h1 : key b < key a := hbt a h
          rcases List.mem_cons.mp (hp.mem_iff.mpr (List.mem_cons_self b t)) with h2 | h2
          · rw [h2] at h1; exact lt_irrefl _ h1
          · exact absurd (hat1 b h2) (not_le.mpr h1)
      subst hab
      rw [ih t1 hp.cons_inv ht1s ht]

/-- A nondecreasing list that permutes a constant-key block followed by a
strictly larger remainder splits as a permutation of the block followed
by a permutation of the remainder. -/
theorem sorted_split {α : Type} [DecidableEq α] (key : α → ℚ) (v : ℚ) :
    ∀ m B rest : List α,
    m.Perm (B ++ rest) →
    m.Pairwise (fun x y => key x ≤ key y) →
    (∀ x ∈ B, key x = v) →
    (∀ y ∈ rest, v < key y) →
    ∃ B2 m2, m = B2 ++ m2 ∧ B2.Perm B ∧ m2.Perm rest := by
  intro m
  induction m with
  | nil =>
    intro B rest hp _ _ _
    obtain ⟨hB0, hr0⟩ := List.append_eq_nil.mp hp.symm.eq_nil
    refine ⟨[], [], rfl, ?_, ?_⟩
    · rw [hB0]
    · rw [hr0]
  | cons a m1 ih =>
    intro B rest hp hs hB hrest
    cases B with
    | nil => exact ⟨[], a :: m1, rfl, List.Perm.refl _, hp⟩
    | cons x B1 =>
      obtain ⟨hheadle, hm1s⟩ := List.pairwise_cons.mp hs
      have haB : a ∈ x :: B1 := by
        rcases List.mem_append.mp (hp.mem_iff.mp (List.mem_cons_self a m1)) with h | h
        · exact h
        · exfalso
          have hva : v < key a := hrest a h
          have hxm : x ∈ a :: m1 :=
            hp.mem_iff.mpr (List.mem_append_left rest (List.mem_cons_self x B1))
          have hkx : key x = v := hB x (List.mem_cons_self x B1)
          rcases List.mem_cons.mp hxm with h2 | h2
          · rw [h2] at hkx; linarith
          · have h3 := hheadle x h2
            linarith
      have hBperm : (x :: B1).Perm (a :: (x :: B1).erase a) := List.perm_cons_erase haB
      have htail : m1.Perm ((x :: B1).erase a ++ rest) :=
        (hp.trans (hBperm.append_right rest)).cons_inv
      obtain ⟨B2, m2, heq, hB2, hm2⟩ := ih ((x :: B1).erase a) rest htail hm1s
        (fun z hz => hB z (List.mem_of_mem_erase hz)) hrest
      refine ⟨a :: B2, m2, ?_, ?_, hm2⟩
      · rw [List.cons_append, heq]
      · exact (hB2.cons a).trans hBperm.symm

/-- cy strictly grows with the row index. -/
theorem pbc_cy_lt (P : GridParams) (hsy : 0 < P.sy) (hh : 0 < P.height)
    {r r2 : ℕ} (hr : r < r2) (c c2 : ℕ) : (pbc P r c).cy < (pbc P r2 c2).cy := by
  rw [pbc_cy, pbc_cy]
  have hrr : (r : ℚ) < (r2 : ℚ) := by exact_mod_cast hr
  have h1 : (r : ℚ) * P.sy < (r2 : ℚ) * P.sy := mul_lt_mul_of_pos_right hrr hsy
  have h3 : (2 * P.y0 + 2 * (r : ℚ) * P.sy + P.th) / 2000 <
      (2 * P.y0 + 2 * (r2 : ℚ) * P.sy + P.th) / 2000 :=
    (div_lt_div_iff_of_pos_right (by norm_num)).mpr (by linarith)
  exact mul_lt_mul_of_pos_right h3 hh

/-- cx strictly grows with the column index. -/
theorem pbc_cx_lt (P : GridParams) (hsx : 0 < P.sx) (hw : 0 < P.width) (r : ℕ)
    {c c2 : ℕ} (hc : c < c2) : (pbc P r c).cx < (pbc P r c2).cx := by
  rw [pbc_cx, pbc_cx]
  have hcc : (c : ℚ) < (c2 : ℚ) := by exact_mod_cast hc
  have h1 : (c : ℚ) * P.sx < (c2 : ℚ) * P.sx := mul_lt_mul_of_pos_right hcc hsx
  have h3 : (2 * P.x0 + 2 * (c : ℚ) * P.sx + P.tw) / 2000 <
      (2 * P.x0 + 2 * (c2 : ℚ) * P.sx + P.tw) / 2000 :=
    (div_lt_div_iff_of_pos_right (by norm_num)).mpr (by linarith)
  exact mul_lt_mul_of_pos_right h3 hw

/-- Within a row, cx is strictly increasing left to right. -/
theorem pairwise_lt_cx_pbRow (P : GridParams) (hsx : 0 < P.sx) (hw : 0 < P.width) (C r : ℕ) :
    (pbRow P C r).Pairwise (fun a b => a.cx < b.cx) := by
  unfold pbRow
  rw [List.pairwise_map]
  exact (List.pairwise_lt_range C).imp (fun hab => pbc_cx_lt P hsx hw r hab)

/-- Sorting any permutation of a grid row by cx restores the row in
left-to-right column order: the content of the per-row sort. -/
theorem sortRow_of_perm (P : GridParams) (hsx : 0 < P.sx) (hw : 0 < P.width) (C r : ℕ)
    (B : List PixelBox) (hB : B.Perm (pbRow P C r)) :
    sortByKey PixelBox.cx B = pbRow P C r :=
  sorted_perm_eq_of_strict PixelBox.cx (pbRow P C r) (sortByKey PixelBox.cx B)
    ((sortByKey_perm PixelBox.cx B).trans hB) (sortByKey_sorted PixelBox.cx B)
    (pairwise_lt_cx_pbRow P hsx hw C r)

/-- A cy-nondecreasing permutation of the grid cells decomposes into
consecutive blocks, one permutation of each grid row in top-down order:
ties within a row may appear in any order, but rows cannot interleave. -/
theorem grid_sorted_decomp (P : GridParams) (hsy : 0 < P.sy) (hh : 0 < P.height) (C : ℕ) :
    ∀ (n r0 : ℕ) (m : List PixelBox),
    m.Perm (((List.range' r0 n).map (pbRow P C)).flatten) →
    m.Pairwise (fun a b => a.cy ≤ b.cy) →
    ∃ M : List (List PixelBox), m = M.flatten ∧
      List.Forall₂ (fun B r => B.Perm (pbRow P C r)) M (List.range' r0 n) := by
  intro n
  induction n with
  | zero =>
    intro r0 m hp _
    exact ⟨[], hp.eq_nil, List.Forall₂.nil⟩
  | succ n2 ih =>
    intro r0 m hp hs
    rw [List.range'_succ, List.map_cons, List.flatten_cons] at hp
    have hBv : ∀ x ∈ pbRow P C r0, x.cy = (pbc P r0 0).cy := by
      intro x hx
      obtain ⟨c, _, rfl⟩ := pbRow_mem P C r0 hx
      rw [pbc_cy, pbc_cy]
    have hrest : ∀ y ∈ ((List.range' (r0 + 1) n2).map (pbRow P C)).flatten,
        (pbc P r0 0).cy < y.cy := by
      intro y hy
      obtain ⟨row, hrow, hyrow⟩ := List.mem_flatten.mp hy
      obtain ⟨r2, hr2, rfl⟩ := List.mem_map.mp hrow
      obtain ⟨c2, _, rfl⟩ := pbRow_mem P C r2 hyrow
      obtain ⟨i, _, rfl⟩ := List.mem_range'.mp hr2
      exact pbc_cy_lt P hsy hh (by omega) 0 c2
    obtain ⟨B2, m2, rfl, hB2, hm2⟩ := sorted_split PixelBox.cy ((pbc P r0 0).cy) _ _ _
      hp hs hBv hrest
    have hm2s : m2.Pairwise (fun a b => a.cy ≤ b.cy) :=
      List.Pairwise.sublist (List.sublist_append_right B2 m2) hs
    obtain ⟨M2, hM2eq, hM2⟩ := ih (r0 + 1) m2 hm2 hm2s
    refine ⟨B2 :: M2, ?_, ?_⟩
    · rw [List.flatten_cons, hM2eq]
    · rw [List.range'_succ]
      exact List.Forall₂.cons hB2 hM2

/-- Every member of a permuted grid row fits the clustering threshold of
any anchor taken from the same block. -/
theorem blockOk_perm (P : GridParams) (hth : 0 < P.th) (hh : 0 < P.height) (C r : ℕ)
    (B : List PixelBox) (hB : B.Perm (pbRow P C r)) {b0 : PixelBox} (hb0 : b0 ∈ B) :
    blockOk b0.cy B := by
  obtain ⟨c0, _, hb0f⟩ := pbRow_mem P C r (hB.mem_iff.mp hb0)
  intro x hx
  obtain ⟨c1, _, rfl⟩ := pbRow_mem P C r (hB.mem_iff.mp hx)
  rw [hb0f, pbc_cy, pbc_cy, pbc_h]
  have hzero : (2 * P.y0 + 2 * (r : ℚ) * P.sy + P.th) / 2000 * P.height -
      (2 * P.y0 + 2 * (r : ℚ) * P.sy + P.th) / 2000 * P.height = 0 := by ring
  rw [hzero, abs_zero]
  exact mul_pos (mul_pos (div_pos hth (by norm_num)) hh) (by norm_num)

/-- Permuted grid rows below row r0 satisfy the clustering break
structure against any anchor from row r0. -/
theorem anchorsBreak_forall2 (P : GridParams) (hth : 0 < P.th) (hsy : 2 * P.th ≤ P.sy)
    (hh : 0 < P.height) (C2 : ℕ) : ∀ (n r0 : ℕ) (M : List (List PixelBox)),
    List.Forall₂ (fun B r => B.Perm (pbRow P (C2 + 1) r)) M (List.range' (r0 + 1) n) →
    anchorsBreak ((pbc P r0 0).cy) M := by
  intro n
  induction n with
  | zero =>
    intro r0 M h
    rw [List.forall₂_nil_right_iff.mp h]
    trivial
  | succ n2 ih =>
    intro r0 M h
    rw [List.range'_succ] at h
    cases h with
    | cons hB hM =>
      rename_i B M2
      have hBlen : B.length = C2 + 1 := hB.length_eq.trans (pbRow_length P (C2 + 1) (r0 + 1))
      cases B with
      | nil => simp at hBlen
      | cons b t =>
        obtain ⟨cb, _, hbf⟩ :=
          pbRow_mem P (C2 + 1) (r0 + 1) (hB.mem_iff.mp (List.mem_cons_self b t))
        refine ⟨?_, ?_, ?_⟩
        · rw [hbf]
          exact pbc_cy_break P hth hsy hh r0 cb 0
        · exact blockOk_perm P hth hh (C2 + 1) (r0 + 1) (b :: t) hB (List.mem_cons_self b t)
        · have hcy : b.cy = (pbc P (r0 + 1) 0).cy := by rw [hbf, pbc_cy, pbc_cy]
          rw [hcy]
          exact ih (r0 + 1) M2 hM

/-- The full list of permuted grid rows is a block structure the
clustering pass reproduces exactly. -/
theorem rowBlocksOk_forall2 (P : GridParams) (hth : 0 < P.th) (hsy : 2 * P.th ≤ P.sy)
    (hh : 0 < P.height) (C2 R2 : ℕ) (M : List (List PixelBox))
    (h : List.Forall₂ (fun B r => B.Perm (pbRow P (C2 + 1) r)) M (List.range' 0 (R2 + 1))) :
    rowBlocksOk M := by
  rw [List.range'_succ] at h
  cases h with
  | cons hB hM =>
    rename_i B M2
    have hBlen : B.length = C2 + 1 := hB.length_eq.trans (pbRow_length P (C2 + 1) 0)
    cases B with
    | nil => simp at hBlen
    | cons b t =>
      obtain ⟨cb, _, hbf⟩ := pbRow_mem P (C2 + 1) 0 (hB.mem_iff.mp (List.mem_cons_self b t))
      refine ⟨?_, ?_⟩
      · exact blockOk_perm P hth hh (C2 + 1) 0 (b :: t) hB (List.mem_cons_self b t)
      · have hcy : b.cy = (pbc P 0 0).cy := by rw [hbf, pbc_cy, pbc_cy]
        rw [hcy]
        exact anchorsBreak_forall2 P hth hsy hh C2 R2 0 M2 hM

/-- Row-major assignment over permuted grid rows: the per-row cx sort
restores column order, so each cell gets its visual (row, col) indices. -/
theorem assignRows_forall2 (P : GridParams) (hsx : 0 < P.sx) (hw : 0 < P.width) (C : ℕ) :
    ∀ (n r0 : ℕ) (M : List (List PixelBox)),
    List.Forall₂ (fun B r => B.Perm (pbRow P C r)) M (List.range' r0 n) →
    assignRows r0 M = (List.range' r0 n).flatMap
      (fun r => (List.range C).map (fun c => ⟨pbc P r c, r, c⟩)) := by
  intro n
  induction n with
  | zero =>
    intro r0 M h
    rw [List.forall₂_nil_right_iff.mp h]
    rfl
  | succ n2 ih =>
    intro r0 M h
    rw [List.range'_succ] at h
    cases h with
    | cons hB hM =>
      rename_i B M2
      rw [List.range'_succ, List.flatMap_cons]
      simp only [assignRows]
      rw [sortRow_of_perm P hsx hw C r0 B hB, ih (r0 + 1) M2 hM]
      congr 1
      show assignRow r0 0 (pbRow P C r0) = _
      unfold pbRow
      rw [List.range_eq_range']
      exact assignRow_map_range' r0 (pbc P r0) C 0

/-- Every block of a permuted grid-row list has C cells. -/
theorem lengths_forall2 (P : GridParams) (C : ℕ) :
    ∀ (M : List (List PixelBox)) (rs : List ℕ),
    List.Forall₂ (fun B r => B.Perm (pbRow P C r)) M rs → ∀ B ∈ M, B.length = C := by
  intro M rs h
  induction h with
  | nil => intro B hB; cases hB
  | cons hab hrest ih =>
    rename_i a b l1 l2
    intro B hB
    rcases List.mem_cons.mp hB with rfl | hB2
    · exact hab.length_eq.trans (pbRow_length P C b)
    · exact ih B hB2

/-- Claim C1:
for every non-empty set of well-separated boxes arranged on an R x C
uniform grid — the grid cells presented in ANY input order (any
permutation), with positive tile size, columns separated by any
nonnegative gap, and rows separated vertically by at least one tile
height — organizeBoxes on an image with positive pixel dimensions
returns exactly R rows and C columns and emits the boxes in row-major
order, assigning each box the (row, col) indices of its visual grid
position.  The embedded algorithm sorts the unordered input by cy
(stably), clusters by opening a new row exactly when a box's cy differs
from the open row's anchor cy by at least half that box's own pixel
height, and sorts each row by cx. -/
theorem organizeBoxes_grid (R C : ℕ) (x0 y0 tw th sx sy width height : ℚ)
    (boxes : List BoundingBox)
    (hperm : boxes.Perm (gridBoxes R C x0 y0 tw th sx sy))
    (hR : 1 ≤ R) (hC : 1 ≤ C) (htw : 0 < tw) (hth : 0 < th)
    (hsx : tw ≤ sx) (hsy : 2 * th ≤ sy) (hw : 0 < width) (hh : 0 < height) :
    organizeBoxes boxes width height =
      { sortedBoxes := (List.range R).flatMap (fun r => (List.range C).map (fun c =>
          ⟨toPixelBox width height (gridBox x0 y0 tw th sx sy r c), r, c⟩)),
        rows := R, cols := C } := by
  obtain ⟨R2, rfl⟩ : ∃ R2, R = R2 + 1 := ⟨R - 1, by omega⟩
  obtain ⟨C2, rfl⟩ : ∃ C2, C = C2 + 1 := ⟨C - 1, by omega⟩
  have hsx0 : (0 : ℚ) < sx := lt_of_lt_of_le htw hsx
  have hsy0 : (0 : ℚ) < sy := by linarith
  have h1 : (gridBoxes (R2 + 1) (C2 + 1) x0 y0 tw th sx sy).map (toPixelBox width height) =
      ((List.range' 0 (R2 + 1)).map
        (pbRow ⟨width, height, x0, y0, tw, th, sx, sy⟩ (C2 + 1))).flatten := by
    simp only [gridBoxes, List.map_flatMap, List.map_map]
    rw [← List.range_eq_range']
    rfl
  have hpb : (boxes.map (toPixelBox width height)).Perm
      (((List.range' 0 (R2 + 1)).map
        (pbRow ⟨width, height, x0, y0, tw, th, sx, sy⟩ (C2 + 1))).flatten) := by
    have h2 := hperm.map (toPixelBox width height)
    rwa [h1] at h2
  have hsp : (sortByKey PixelBox.cy (boxes.map (toPixelBox width height))).Perm
      (((List.range' 0 (R2 + 1)).map
        (pbRow ⟨width, height, x0, y0, tw, th, sx, sy⟩ (C2 + 1))).flatten) :=
    (sortByKey_perm PixelBox.cy (boxes.map (toPixelBox width height))).trans hpb
  have hss := sortByKey_sorted PixelBox.cy (boxes.map (toPixelBox width height))
  obtain ⟨M, hMeq, hMall⟩ := grid_sorted_decomp ⟨width, height, x0, y0, tw, th, sx, sy⟩
    hsy0 hh (C2 + 1) (R2 + 1) 0 (sortByKey PixelBox.cy (boxes.map (toPixelBox width height)))
    hsp hss
  have hMlen : M.length = R2 + 1 := hMall.length_eq.trans (List.length_range' 0 1 (R2 + 1))
  have hMne : M ≠ [] := by
    intro hnil
    rw [hnil] at hMlen
    simp at hMlen
  simp only [organizeBoxes]
  rw [hMeq,
    clusterRows_flatten M
      (rowBlocksOk_forall2 ⟨width, height, x0, y0, tw, th, sx, sy⟩ hth hsy hh C2 R2 M hMall),
    assignRows_forall2 ⟨width, height, x0, y0, tw, th, sx, sy⟩ hsx0 hw (C2 + 1)
      (R2 + 1) 0 M hMall,
    foldl_max_length (C2 + 1) M
      (lengths_forall2 ⟨width, height, x0, y0, tw, th, sx, sy⟩ (C2 + 1) M _ hMall) 0 hMne,
    Nat.zero_max, hMlen, List.range_eq_range' (R2 + 1)]
  rfl

/-- Witness for claim C1: the four cells of a concrete 2 x 2 grid
(100 x 100 tiles, 50-unit column gap, 150-unit row gap, 1000 x 1000
image) fed to organizeBoxes in scrambled order. -/
theorem organizeBoxes_grid_witness :
    organizeBoxes [⟨150, 250, 250, 350⟩, ⟨0, 0, 100, 100⟩, ⟨150, 0, 250, 100⟩,
        ⟨0, 250, 100, 350⟩] 1000 1000 =
      { sortedBoxes := (List.range 2).flatMap (fun r => (List.range 2).map (fun c =>
          ⟨toPixelBox 1000 1000 (gridBox 0 0 100 100 150 250 r c), r, c⟩)),
        rows := 2, cols := 2 } := by
  have hlit : gridBoxes 2 2 0 0 100 100 150 250 =
      [⟨0, 0, 100, 100⟩, ⟨150, 0, 250, 100⟩, ⟨0, 250, 100, 350⟩, ⟨150, 250, 250, 350⟩] := by
    norm_num [gridBoxes, gridBox, List.range_succ]
  refine organizeBoxes_grid 2 2 0 0 100 100 150 250 1000 1000 _ ?_ (by norm_num) (by norm_num)
    (by norm_num) (by norm_num) (by norm_num) (by norm_num) (by norm_num) (by norm_num)
  rw [hlit]
  exact (List.Perm.swap _ _ _).trans
    (((List.Perm.swap _ _ _).cons _).trans (((List.Perm.swap _ _ _).cons _).cons _))
